import Mathlib

/-!
Verification development for the Ethereum blacklisting policy engine.

The definitions below embed, in Lean, the blacklist data structures of
blacklist.py (DictBlacklist, FIFOBlacklist, SetBlacklist), the shared
wrapper operations of blacklist_policy.py, and the per-policy taint
transfer rules of policy_haircut.py and the policies package
(policy_seniority.py, policy_reversed_seniority.py, policy_poison.py,
policy_fifo.py).  Python dicts keyed by address or currency strings are
embedded as association lists operated on by lookupKey, upsert and
eraseKey; Python arbitrary-precision integers are embedded as ℤ; a Python
KeyError is embedded as an Option returning none.
-/

set_option synthInstance.maxSize 512

namespace EthBlacklisting

/-- Null address constant, ethereum_utils.py line 18. -/
def null_address : String := "0x0000000000000000000000000000000000000000"

/-- Lookup in an association list embedding a Python dict: the value bound to
the first occurrence of the key, if any. -/
def lookupKey {α : Type} (k : String) : List (String × α) → Option α
  | [] => none
  | (k', v) :: rest => if k' = k then some v else lookupKey k rest

/-- Assignment in an association list embedding a Python dict: replaces the
first binding of the key, or appends a new binding. -/
def upsert {α : Type} (l : List (String × α)) (k : String) (v : α) : List (String × α) :=
  match l with
  | [] => [(k, v)]
  | (k', v') :: rest => if k' = k then (k, v) :: rest else (k', v') :: upsert rest k v

/-- Deletion in an association list embedding a Python dict (del / pop):
removes the first binding of the key. -/
def eraseKey {α : Type} (k : String) : List (String × α) → List (String × α)
  | [] => []
  | (k', v') :: rest => if k' = k then rest else (k', v') :: eraseKey k rest

theorem lookupKey_upsert_self {α : Type} (l : List (String × α)) (k : String) (v : α) :
    lookupKey k (upsert l k v) = some v := by
  induction l with
  | nil => simp [upsert, lookupKey]
  | cons hd tl ih =>
    obtain ⟨k', v'⟩ := hd
    by_cases h : k' = k
    · simp [upsert, lookupKey, h]
    · simp [upsert, lookupKey, h, ih]

theorem lookupKey_upsert_ne {α : Type} (l : List (String × α)) (k k₀ : String) (v : α)
    (h : k₀ ≠ k) : lookupKey k₀ (upsert l k v) = lookupKey k₀ l := by
  induction l with
  | nil => simp [upsert, lookupKey, Ne.symm h]
  | cons hd tl ih =>
    obtain ⟨k', v'⟩ := hd
    by_cases hk : k' = k
    · subst hk
      simp [upsert, lookupKey, Ne.symm h]
    · by_cases hk0 : k' = k₀
      · subst hk0
        simp [upsert, lookupKey, hk]
      · simp [upsert, lookupKey, hk, hk0, ih]

theorem lookupKey_eraseKey_ne {α : Type} (l : List (String × α)) (k k₀ : String)
    (h : k₀ ≠ k) : lookupKey k₀ (eraseKey k l) = lookupKey k₀ l := by
  induction l with
  | nil => simp [eraseKey]
  | cons hd tl ih =>
    obtain ⟨k', v'⟩ := hd
    by_cases hk : k' = k
    · subst hk
      simp [eraseKey, lookupKey, Ne.symm h]
    · by_cases hk0 : k' = k₀
      · subst hk0
        simp [eraseKey, lookupKey, hk]
      · simp [eraseKey, lookupKey, hk, hk0, ih]

theorem lookupKey_mem {α : Type} {l : List (String × α)} {k : String} {v : α}
    (h : lookupKey k l = some v) : (k, v) ∈ l := by
  induction l with
  | nil => simp [lookupKey] at h
  | cons hd tl ih =>
    obtain ⟨k', v'⟩ := hd
    by_cases hk : k' = k
    · subst hk
      simp [lookupKey] at h
      simp [h]
    · simp [lookupKey, hk] at h
      exact List.mem_cons_of_mem _ (ih h)

theorem mem_upsert {α : Type} {l : List (String × α)} {k : String} {v : α} {p : String × α}
    (h : p ∈ upsert l k v) : p ∈ l ∨ p = (k, v) := by
  induction l with
  | nil => simp [upsert] at h; simp [h]
  | cons hd tl ih =>
    obtain ⟨k', v'⟩ := hd
    by_cases hk : k' = k
    · simp [upsert, hk] at h
      rcases h with h | h
      · right; simp [h]
      · left; exact List.mem_cons_of_mem _ h
    · simp [upsert, hk] at h
      rcases h with h | h
      · left; simp [h]
      · rcases ih h with h' | h'
        · left; exact List.mem_cons_of_mem _ h'
        · right; exact h'

theorem mem_eraseKey {α : Type} {l : List (String × α)} {k : String} {p : String × α}
    (h : p ∈ eraseKey k l) : p ∈ l := by
  induction l with
  | nil => simp [eraseKey] at h
  | cons hd tl ih =>
    obtain ⟨k', v'⟩ := hd
    by_cases hk : k' = k
    · simp [eraseKey, hk] at h
      exact List.mem_cons_of_mem _ h
    · simp [eraseKey, hk] at h
      rcases h with h | h
      · simp [h]
      · exact List.mem_cons_of_mem _ (ih h)

namespace DictBlacklist

/-- The DictBlacklist state (blacklist.py lines 149-152): a dict mapping each
account to a dict mapping each currency to its tainted integer amount.  The
reserved key "all" (bound to a list of currencies in the source) is created
only by add_account_to_blacklist, which is outside the operations embedded
here, so currency keys all carry integer values. -/
abbrev Store : Type := List (String × List (String × ℤ))

/-- Embeds DictBlacklist.is_blacklisted (blacklist.py lines 173-177). -/
def is_blacklisted (bl : Store) (address : String) (currency : Option String) : Bool :=
  match currency with
  | none => (lookupKey address bl).isSome
  | some c =>
    match lookupKey address bl with
    | none => false
    | some m => (lookupKey c m).isSome

/-- Embeds DictBlacklist.add_to_blacklist (blacklist.py lines 179-188): the
address and currency entries are created when missing (with value 0) and the
amount is added.  No purge happens here. -/
def add_to_blacklist (bl : Store) (address currency : String) (amount : ℤ) : Store :=
  let m := (lookupKey address bl).getD []
  let v := (lookupKey currency m).getD 0
  upsert bl address (upsert m currency (v + amount))

/-- Embeds DictBlacklist.remove_from_blacklist (blacklist.py lines 190-200):
abs(amount) is subtracted, the currency entry is deleted when the result is 0,
and the account is deleted when its map becomes empty; abs(amount) is
returned.  none embeds the KeyError raised when the account or currency is
absent. -/
def remove_from_blacklist (bl : Store) (address : String) (amount : ℤ) (currency : String) :
    Option (Store × ℤ) :=
  match lookupKey address bl with
  | none => none
  | some m =>
    match lookupKey currency m with
    | none => none
    | some v =>
      let a := |amount|
      let m1 := upsert m currency (v - a)
      let m2 := if v - a = 0 then eraseKey currency m1 else m1
      let bl1 := upsert bl address m2
      let bl2 := if v - a = 0 ∧ m2 = [] then eraseKey address bl1 else bl1
      some (bl2, a)

/-- Embeds DictBlacklist.get_account_blacklist_value (blacklist.py lines
209-214): 0 when the account or currency is absent. -/
def get_account_blacklist_value (bl : Store) (account currency : String) : ℤ :=
  match lookupKey account bl with
  | none => 0
  | some m => (lookupKey currency m).getD 0

end DictBlacklist

namespace FIFOBlacklist

/-- The FIFOBlacklist state (blacklist.py lines 249-252): a dict mapping each
account to a dict mapping each currency to an ordered queue of
(tainted_portion, total_inflow) pairs.  The reserved key "all" does not arise
under the operations embedded here. -/
abbrev Store : Type := List (String × List (String × List (ℤ × ℤ)))

/-- Sum of the tainted portions tx[0] over a queue, as accumulated by
FIFOBlacklist.get_account_blacklist_value (blacklist.py lines 371-372). -/
def taintSum (q : List (ℤ × ℤ)) : ℤ := (q.map Prod.fst).sum

/-- Sum of the total inflows tx[1] over a queue, as accumulated by
FIFOBlacklist.get_tracked_value (blacklist.py lines 259-260). -/
def inflowSum (q : List (ℤ × ℤ)) : ℤ := (q.map Prod.snd).sum

/-- Embeds FIFOBlacklist.get_account_blacklist_value (blacklist.py lines
363-374) for an ordinary currency (the reserved "all" branch does not arise
here): 0 when absent, else the sum of tainted portions. -/
def get_account_blacklist_value (bl : Store) (account currency : String) : ℤ :=
  match lookupKey account bl with
  | none => 0
  | some m => taintSum ((lookupKey currency m).getD [])

/-- Embeds FIFOBlacklist.get_tracked_value (blacklist.py lines 254-262). -/
def get_tracked_value (bl : Store) (account currency : String) : ℤ :=
  match lookupKey account bl with
  | none => 0
  | some m => inflowSum ((lookupKey currency m).getD [])

/-- Embeds FIFOBlacklist.is_blacklisted (blacklist.py lines 303-307). -/
def is_blacklisted (bl : Store) (address : String) (currency : Option String) : Bool :=
  match currency with
  | none => (lookupKey address bl).isSome
  | some c =>
    match lookupKey address bl with
    | none => false
    | some m => (lookupKey c m).isSome

/-- The queue update of FIFOBlacklist.add_to_blacklist (blacklist.py lines
292-295): a zero-amount add coalesces into a trailing zero-taint pair by
growing its total, otherwise the pair (amount, total) is appended. -/
def append_or_coalesce (q : List (ℤ × ℤ)) (amount total : ℤ) : List (ℤ × ℤ) :=
  match q.getLast? with
  | some (t0, T0) =>
    if amount = 0 ∧ t0 = 0 then q.dropLast ++ [(t0, T0 + total)]
    else q ++ [(amount, total)]
  | none => q ++ [(amount, total)]

/-- Embeds FIFOBlacklist.add_to_blacklist (blacklist.py lines 280-301):
total_amount defaults to amount; the queue is updated by append_or_coalesce;
then the currency is purged if the stored taint sum is 0 and the account is
purged if its map is empty. -/
def add_to_blacklist (bl : Store) (address currency : String) (amount : ℤ)
    (total_amount : Option ℤ) : Store :=
  let total := total_amount.getD amount
  let m := (lookupKey address bl).getD []
  let q := (lookupKey currency m).getD []
  let q1 := append_or_coalesce q amount total
  let m1 := upsert m currency q1
  let m2 := if taintSum q1 = 0 then eraseKey currency m1 else m1
  let bl1 := upsert bl address m2
  if m2 = [] then eraseKey address bl1 else bl1

/-- Embeds the consumption loop of FIFOBlacklist.remove_from_blacklist
(blacklist.py lines 331-349), acting on the queue at the given account and
currency: each iteration takes the head pair (t, T), reduces it by
amount_reduced = min(amount, T), keeps remaining taint min(t, T -
amount_reduced), pops the pair when its total reaches 0, and stops when the
remaining amount reaches 0.  Returns the remaining queue and the total
removed taint. -/
def consume_queue : List (ℤ × ℤ) → ℤ → List (ℤ × ℤ) × ℤ
  | [], _ => ([], 0)
  | (t, T) :: rest, amount =>
    let amount_reduced := min amount T
    let remaining_taint_in_tx := min t (T - amount_reduced)
    let removed_taint := t - remaining_taint_in_tx
    let q1 := if T - amount_reduced = 0 then rest
      else (remaining_taint_in_tx, T - amount_reduced) :: rest
    if amount - amount_reduced = 0 then
      (q1, removed_taint)
    else
      -- a nonzero remaining amount forces amount_reduced = min amount T < amount,
      -- hence amount_reduced = T, the head pair hit total 0 and was popped, and
      -- q1 = rest: the loop continues on the tail of the queue
      let p := consume_queue rest (amount - amount_reduced)
      (p.1, removed_taint + p.2)

/-- The continuation branch of consume_queue really does pop the head pair:
whenever the remaining amount is nonzero, q1 of the source loop equals rest. -/
theorem consume_queue_continue_pops (T amount : ℤ)
    (h : amount - min amount T ≠ 0) : T - min amount T = 0 := by
  omega

/-- Embeds FIFOBlacklist.remove_from_blacklist (blacklist.py lines 322-355):
consume the queue at (address, currency), then purge the currency if the
stored taint sum is 0 and the account if its map is empty; returns the
removed taint.  none embeds the KeyError raised when the account or currency
is absent. -/
def remove_from_blacklist (bl : Store) (address : String) (amount : ℤ) (currency : String) :
    Option (Store × ℤ) :=
  match lookupKey address bl with
  | none => none
  | some m =>
    match lookupKey currency m with
    | none => none
    | some q =>
      let p := consume_queue q amount
      let m1 := upsert m currency p.1
      let m2 := if taintSum p.1 = 0 then eraseKey currency m1 else m1
      let bl1 := upsert bl address m2
      let bl2 := if m2 = [] then eraseKey address bl1 else bl1
      some (bl2, p.2)

end FIFOBlacklist

/-- Keys of an association list are pairwise distinct, as they are for an
embedded Python dict built by these operations. -/
abbrev KeysNodup {α : Type} (l : List (String × α)) : Prop := (l.map Prod.fst).Nodup

theorem lookupKey_eq_none_of_not_mem {α : Type} {l : List (String × α)} {k : String}
    (h : k ∉ l.map Prod.fst) : lookupKey k l = none := by
  induction l with
  | nil => rfl
  | cons hd tl ih =>
    obtain ⟨k', v'⟩ := hd
    simp only [List.map_cons, List.mem_cons] at h
    push_neg at h
    simp [lookupKey, Ne.symm h.1, ih h.2]

theorem lookupKey_eraseKey_upsert_self {α : Type} (m : List (String × α)) (k : String) (v : α)
    (hnd : KeysNodup m) : lookupKey k (eraseKey k (upsert m k v)) = none := by
  induction m with
  | nil => simp [upsert, eraseKey, lookupKey]
  | cons hd tl ih =>
    obtain ⟨k', v'⟩ := hd
    simp only [KeysNodup, List.map_cons, List.nodup_cons] at hnd
    by_cases hk : k' = k
    · subst hk
      simp only [upsert, if_pos rfl, eraseKey, if_pos rfl]
      exact lookupKey_eq_none_of_not_mem hnd.1
    · simp [upsert, eraseKey, lookupKey, hk, ih hnd.2]

/-- Follows the words of the specification for FIFO removal (spec section 4.4
and claim C1): walking the queue from the head, for each head pair (t, T) let
consumed = min(amount, T) and remaining_t = min(t, T - consumed); the removed
taint accumulates t - remaining_t, the pair is updated to (remaining_t,
T - consumed), popped when its total T - consumed reaches 0, and the walk
continues until the amount is exhausted or the queue empties.  As in
FIFOBlacklist.consume_queue, a nonzero remaining amount forces consumed = T,
so the continued walk proceeds on the tail. -/
def specConsumeQueue : List (ℤ × ℤ) → ℤ → ℤ → List (ℤ × ℤ) × ℤ
  | [], _, acc => ([], acc)
  | (t, T) :: rest, amount, acc =>
    let consumed := min amount T
    let remaining_t := min t (T - consumed)
    let acc1 := acc + (t - remaining_t)
    let q1 := if T - consumed = 0 then rest else (remaining_t, T - consumed) :: rest
    if amount - consumed = 0 then (q1, acc1)
    else specConsumeQueue rest (amount - consumed) acc1

theorem specConsumeQueue_accumulates (q : List (ℤ × ℤ)) : ∀ (a acc : ℤ),
    specConsumeQueue q a acc =
      ((FIFOBlacklist.consume_queue q a).1, acc + (FIFOBlacklist.consume_queue q a).2) := by
  induction q with
  | nil => intro a acc; simp [specConsumeQueue, FIFOBlacklist.consume_queue]
  | cons hd tl ih =>
    obtain ⟨t, T⟩ := hd
    intro a acc
    by_cases h : a - min a T = 0
    · simp [specConsumeQueue, FIFOBlacklist.consume_queue, h]
    · simp only [specConsumeQueue, FIFOBlacklist.consume_queue, if_neg h, ih]
      rw [Prod.mk.injEq]
      exact ⟨rfl, by ring⟩

/-- C1: FIFOBlacklist.remove_from_blacklist consumes pairs from the head of
the queue exactly as specified — for each head pair (t, T) it takes consumed =
min(amount, T) and remaining_t = min(t, T - consumed), adds t - remaining_t to
the returned removed taint, updates the pair to (remaining_t, T - consumed),
pops the pair when its total reaches 0, and stops when the amount is exhausted
or the queue empties — and in particular, on the queue [(4, 10), (6, 6)] with
amount 7 the head pair becomes (3, 3), the second pair is untouched and the
returned removed taint is 1. -/
theorem c1_fifo_remove_consumes_head_as_specified :
    (∀ (q : List (ℤ × ℤ)) (a : ℤ),
      FIFOBlacklist.consume_queue q a = specConsumeQueue q a 0) ∧
    FIFOBlacklist.remove_from_blacklist [("A", [("ETH", [(4, 10), (6, 6)])])] "A" 7 "ETH"
      = some ([("A", [("ETH", [(3, 3), (6, 6)])])], 1) := by
  constructor
  · intro q a
    rw [specConsumeQueue_accumulates]
    simp
  · decide

/-- C6 counterexample: on the store with account "A" holding tainted value 3
of "ETH", DictBlacklist.remove_from_blacklist with amount 5 returns 5 rather
than min(5, 3) = 3, and leaves the negative tainted value -2 in place, so the
claim fails as stated. -/
theorem c6_counterexample_dict_remove_exceeds_value :
    DictBlacklist.remove_from_blacklist [("A", [("ETH", 3)])] "A" 5 "ETH"
      = some ([("A", [("ETH", -2)])], 5) ∧ (5 : ℤ) ≠ min 5 3 ∧ (-2 : ℤ) < 0 := by
  refine ⟨by decide, by decide, by decide⟩

/-- C6 (amended): for an account a blacklisted in currency c with tainted
value v, DictBlacklist.remove_from_blacklist(a, amount, c) subtracts
abs(amount) from the entry and returns abs(amount); when 0 ≤ amount ≤ v this
coincides with min(amount, v) and the remaining value is nonnegative; the
(a, c) entry (and the account, when its per-currency map empties) is purged
exactly when the value reaches zero. -/
theorem c6_dict_remove_characterization
    (bl : DictBlacklist.Store) (m : List (String × ℤ)) (a c : String) (amount v : ℤ)
    (ha : lookupKey a bl = some m) (hc : lookupKey c m = some v)
    (hnda : KeysNodup bl) (hndm : KeysNodup m) :
    ∃ bl1, DictBlacklist.remove_from_blacklist bl a amount c = some (bl1, |amount|) ∧
      (0 ≤ amount → amount ≤ v → |amount| = min amount v ∧ 0 ≤ v - |amount|) ∧
      (v - |amount| ≠ 0 → DictBlacklist.get_account_blacklist_value bl1 a c = v - |amount|) ∧
      (v - |amount| = 0 → DictBlacklist.is_blacklisted bl1 a (some c) = false) := by
  have harith : 0 ≤ amount → amount ≤ v → |amount| = min amount v ∧ 0 ≤ v - |amount| := by
    intro h1 h2
    rw [abs_of_nonneg h1]
    omega
  by_cases h0 : v - |amount| = 0
  · by_cases hm2 : eraseKey c (upsert m c (v - |amount|)) = []
    · refine ⟨eraseKey a (upsert bl a (eraseKey c (upsert m c (v - |amount|)))),
        ?_, harith, fun hne => absurd h0 hne, fun _ => ?_⟩
      · simp only [DictBlacklist.remove_from_blacklist, ha, hc, if_pos h0]
        have hcond : v - |amount| = 0 ∧ eraseKey c (upsert m c (v - |amount|)) = [] := ⟨h0, hm2⟩
        rw [if_pos hcond]
      · simp only [DictBlacklist.is_blacklisted]
        rw [hm2]
        simp [lookupKey_eraseKey_upsert_self bl a ([] : List (String × ℤ)) hnda]
    · refine ⟨upsert bl a (eraseKey c (upsert m c (v - |amount|))),
        ?_, harith, fun hne => absurd h0 hne, fun _ => ?_⟩
      · simp only [DictBlacklist.remove_from_blacklist, ha, hc, if_pos h0]
        rw [if_neg (by simp [hm2])]
      · simp only [DictBlacklist.is_blacklisted]
        simp [lookupKey_upsert_self, lookupKey_eraseKey_upsert_self m c (v - |amount|) hndm]
  · refine ⟨upsert bl a (upsert m c (v - |amount|)),
      ?_, harith, fun _ => ?_, fun hz => absurd hz h0⟩
    · simp only [DictBlacklist.remove_from_blacklist, ha, hc, if_neg h0]
      rw [if_neg (by simp [h0])]
    · simp only [DictBlacklist.get_account_blacklist_value]
      simp [lookupKey_upsert_self]

theorem c6_witness_dict_remove_purges_at_value :
    ∃ bl1, DictBlacklist.remove_from_blacklist [("A", [("ETH", 3)])] "A" 3 "ETH"
        = some (bl1, |(3 : ℤ)|) ∧
      ((0 : ℤ) ≤ 3 → (3 : ℤ) ≤ 3 → |(3 : ℤ)| = min 3 3 ∧ (0 : ℤ) ≤ 3 - |(3 : ℤ)|) ∧
      ((3 : ℤ) - |(3 : ℤ)| ≠ 0 →
        DictBlacklist.get_account_blacklist_value bl1 "A" "ETH" = 3 - |(3 : ℤ)|) ∧
      ((3 : ℤ) - |(3 : ℤ)| = 0 → DictBlacklist.is_blacklisted bl1 "A" (some "ETH") = false) :=
  c6_dict_remove_characterization [("A", [("ETH", 3)])] [("ETH", 3)] "A" "ETH" 3 3
    (by decide) (by decide) (by decide) (by decide)

/-- Embeds the progress-interval selection of BlacklistPolicy.propagate_blacklist
(blacklist_policy.py lines 218-225). -/
def progress_interval (block_amount : ℤ) : ℤ :=
  if block_amount < 20 then 1
  else if block_amount < 200 then 10
  else if block_amount < 2000 then 100
  else 500

/-- C10 counterexample: at block_count = 20 the propagator picks interval 10,
not the interval 1 the claim assigns to block_count ≤ 20. -/
theorem c10_counterexample_interval_at_twenty :
    progress_interval 20 = 10 ∧ (10 : ℤ) ≠ 1 := by
  refine ⟨by decide, by decide⟩

/-- C10 (amended): the propagator picks progress interval 1 when
block_count < 20, 10 when 20 ≤ block_count < 200, 100 when
200 ≤ block_count < 2000, and 500 when 2000 ≤ block_count: the source
compares with strict less-than, so each boundary value falls in the next
bucket. -/
theorem c10_progress_interval_strict_boundaries (n : ℤ) :
    (n < 20 → progress_interval n = 1) ∧
    (20 ≤ n → n < 200 → progress_interval n = 10) ∧
    (200 ≤ n → n < 2000 → progress_interval n = 100) ∧
    (2000 ≤ n → progress_interval n = 500) := by
  unfold progress_interval
  refine ⟨fun h => ?_, fun h1 h2 => ?_, fun h1 h2 => ?_, fun h => ?_⟩ <;>
    split_ifs <;> omega

namespace SetBlacklist

/-- The SetBlacklist state (blacklist.py lines 105-146): the set of tainted
accounts, embedded as a duplicate-free list. -/
abbrev Store : Type := List String

/-- Embeds SetBlacklist.is_blacklisted (blacklist.py lines 120-121):
membership; the currency argument is ignored by this variant. -/
def is_blacklisted (bl : Store) (address : String) : Bool := bl.contains address

/-- Embeds SetBlacklist.add_to_blacklist (blacklist.py lines 117-118): set
insertion. -/
def add_to_blacklist (bl : Store) (address : String) : Store :=
  if bl.contains address then bl else bl ++ [address]

end SetBlacklist

namespace PoisonPolicy

/-- Embeds PoisonPolicy._transfer_taint (policies/policy_poison.py lines
17-22) together with add_to_poison_blacklist (lines 44-46) and the
null-address guard of BlacklistPolicy.add_to_blacklist (blacklist_policy.py
lines 531-543): returns the updated set blacklist and the returned taint
amount.  The amount_sent and currency arguments mirror the source signature;
SetBlacklist ignores the currency. -/
def transfer_taint (bl : SetBlacklist.Store) (from_address to_address : String)
    (_amount_sent : ℤ) (_currency : String) : SetBlacklist.Store × ℤ :=
  if ¬ SetBlacklist.is_blacklisted bl from_address ∨ SetBlacklist.is_blacklisted bl to_address
  then (bl, 0)
  else
    (if to_address = null_address then bl else SetBlacklist.add_to_blacklist bl to_address, 1)

end PoisonPolicy

/-- C5 counterexample: with the set blacklist holding exactly "0xA", a
transfer from "0xA" to the null address returns 1 — not the 0 the claim
assigns to every call whose receiver is the null address — while the
blacklist is unchanged. -/
theorem c5_counterexample_poison_null_receiver_returns_one :
    PoisonPolicy.transfer_taint ["0xA"] "0xA" null_address 7 "ETH" = (["0xA"], 1) ∧
      (1 : ℤ) ≠ 0 := by
  refine ⟨by decide, by decide⟩

/-- C5 (amended): PoisonPolicy._transfer_taint returns 1 exactly when the
sender is tainted and the receiver is not already tainted; in that case the
receiver is marked tainted unless it is the null address, whose marking the
add_to_blacklist wrapper suppresses even though 1 is still returned.  In
every other case (sender untainted, or receiver already tainted) it returns 0
and the blacklist is unchanged. -/
theorem c5_poison_transfer_characterization (bl : SetBlacklist.Store)
    (from_address to_address : String) (amount_sent : ℤ) (currency : String) :
    PoisonPolicy.transfer_taint bl from_address to_address amount_sent currency =
      (if SetBlacklist.is_blacklisted bl from_address = true ∧
          SetBlacklist.is_blacklisted bl to_address = false ∧ to_address ≠ null_address
        then SetBlacklist.add_to_blacklist bl to_address else bl,
       if SetBlacklist.is_blacklisted bl from_address = true ∧
          SetBlacklist.is_blacklisted bl to_address = false
        then 1 else 0) := by
  unfold PoisonPolicy.transfer_taint
  rcases hf : SetBlacklist.is_blacklisted bl from_address with _ | _ <;>
    rcases ht : SetBlacklist.is_blacklisted bl to_address with _ | _ <;>
      by_cases hn : to_address = null_address <;>
        simp [hf, ht, hn]

/-- Permanent-taint flag.  Modelled from the spec: is_permanently_tainted is
defined in the policies package base class, which is not among the sources;
per spec section 4.5.6 it is a per-account flag set by
permanently_taint_account, embedded here as membership in the list of
permanently tainted accounts. -/
def is_permanently_tainted (permanent : List String) (address : String) : Bool :=
  permanent.contains address

namespace BlacklistPolicy

/-- Embeds BlacklistPolicy.add_to_blacklist (blacklist_policy.py lines
531-546) over a DictBlacklist store: the null address is never tainted;
otherwise the store add runs (the total_amount argument is unused by the Dict
store). -/
def add_to_blacklist_dict (bl : DictBlacklist.Store) (address : String) (amount : ℤ)
    (currency : String) : DictBlacklist.Store :=
  if address = null_address then bl
  else DictBlacklist.add_to_blacklist bl address currency amount

/-- Embeds BlacklistPolicy.add_to_blacklist (blacklist_policy.py lines
531-546) over a FIFOBlacklist store: the null address is never tainted;
otherwise the store add runs with the given total_amount. -/
def add_to_blacklist_fifo (bl : FIFOBlacklist.Store) (address : String) (amount : ℤ)
    (currency : String) (total_amount : Option ℤ) : FIFOBlacklist.Store :=
  if address = null_address then bl
  else FIFOBlacklist.add_to_blacklist bl address currency amount total_amount

end BlacklistPolicy

namespace SeniorityPolicy

/-- Embeds SeniorityPolicy._process_gas_fees (policies/policy_seniority.py
lines 49-77): if the sender is blacklisted in ETH, compute total_fee_paid =
gas_price * gas_used and paid_to_miner = (gas_price - base_fee) * gas_used;
unless the sender is permanently tainted, remove min(total_fee_paid, B) from
the sender and credit min(paid_to_miner, B) to the miner, both minima taken
against the blacklist value B read before the debit (source lines 65-66 both
read it before the removal on line 68).  BlacklistPolicy.remove_from_blacklist
(blacklist_policy.py lines 602-617) forwards to the store remove; the
temp-balance updates are overridden to no-ops in this policy (lines 79-93) and
the tainted-transaction counters are not blacklist state. -/
def process_gas_fees (bl : DictBlacklist.Store) (permanent : List String)
    (sender miner : String) (gas_price base_fee gas_used : ℤ) :
    Option DictBlacklist.Store :=
  if ¬ DictBlacklist.is_blacklisted bl sender (some "ETH") then some bl
  else
    let total_fee_paid := gas_price * gas_used
    let paid_to_miner := (gas_price - base_fee) * gas_used
    if is_permanently_tainted permanent sender then
      some (BlacklistPolicy.add_to_blacklist_dict bl miner paid_to_miner "ETH")
    else
      let B := DictBlacklist.get_account_blacklist_value bl sender "ETH"
      match DictBlacklist.remove_from_blacklist bl sender (min total_fee_paid B) "ETH" with
      | none => none
      | some (bl1, _) =>
        some (BlacklistPolicy.add_to_blacklist_dict bl1 miner (min paid_to_miner B) "ETH")

end SeniorityPolicy

namespace ReversedSeniorityPolicy

/-- The shared delivery tail of ReversedSeniorityPolicy._transfer_taint
(policies/policy_reversed_seniority.py lines 36-45): a None or null receiver
burns the taint, otherwise the transferred amount is added to the receiver of
currency_2. -/
def deliver (bl : DictBlacklist.Store) (to_address : Option String)
    (transferred : ℤ) (c2 : String) : DictBlacklist.Store × ℤ :=
  match to_address with
  | none => (bl, transferred)
  | some to_addr =>
    if to_addr = null_address then (bl, transferred)
    else (BlacklistPolicy.add_to_blacklist_dict bl to_addr transferred c2, transferred)

/-- Embeds ReversedSeniorityPolicy._transfer_taint
(policies/policy_reversed_seniority.py lines 17-45): an untainted sender
moves nothing; a permanently tainted sender moves the full amount_sent;
otherwise transferred = max(0, B - (X - amount_sent)) with B the sender's
blacklist value and X the temp balance, returning 0 with no state change when
that is 0, and removing transferred from the sender before delivery.  The
temp-balance read self._get_temp_balance(from_address, currency) is passed in
as sender_balance; to_address of none embeds Python None. -/
def transfer_taint (bl : DictBlacklist.Store) (permanent : List String)
    (from_address : String) (to_address : Option String) (amount_sent : ℤ)
    (currency : String) (currency_2 : Option String) (sender_balance : ℤ) :
    Option (DictBlacklist.Store × ℤ) :=
  if ¬ DictBlacklist.is_blacklisted bl from_address (some currency) then some (bl, 0)
  else
    let c2 := currency_2.getD currency
    if is_permanently_tainted permanent from_address then
      some (deliver bl to_address amount_sent c2)
    else
      let B := DictBlacklist.get_account_blacklist_value bl from_address currency
      let transferred := max 0 (B - (sender_balance - amount_sent))
      if transferred = 0 then some (bl, 0)
      else
        match DictBlacklist.remove_from_blacklist bl from_address transferred currency with
        | none => none
        | some (bl1, _) => some (deliver bl1 to_address transferred c2)

end ReversedSeniorityPolicy

namespace FIFOPolicy

/-- Embeds FIFOPolicy._transfer_taint (policies/policy_fifo.py lines 19-48):
a permanently tainted sender transfers amount_sent outright; a blacklisted
sender transfers what FIFOBlacklist.remove_from_blacklist removes for
sent_amount_tracked = amount_sent - (temp balance - tracked value), when that
is positive; then, when the receiver exists and is blacklisted in the
currency or some taint moved, the receiver records the inflow through
BlacklistPolicy.add_to_blacklist with total_amount = amount_sent.  The
temp-balance read self._get_temp_balance(from_address, currency) is passed in
as from_temp_balance; to_address of none embeds Python None. -/
def transfer_taint (bl : FIFOBlacklist.Store) (permanent : List String)
    (from_address : String) (to_address : Option String) (amount_sent : ℤ)
    (currency : String) (currency_2 : Option String) (from_temp_balance : ℤ) :
    Option (FIFOBlacklist.Store × ℤ) :=
  let c2 := currency_2.getD currency
  let step : Option (FIFOBlacklist.Store × ℤ) :=
    if is_permanently_tainted permanent from_address then some (bl, amount_sent)
    else if FIFOBlacklist.is_blacklisted bl from_address (some currency) then
      let untracked_balance :=
        from_temp_balance - FIFOBlacklist.get_tracked_value bl from_address currency
      let sent_amount_tracked := amount_sent - untracked_balance
      if sent_amount_tracked > 0 then
        FIFOBlacklist.remove_from_blacklist bl from_address sent_amount_tracked currency
      else some (bl, 0)
    else some (bl, 0)
  match step with
  | none => none
  | some (bl1, transferred) =>
    match to_address with
    | none => some (bl1, transferred)
    | some to_addr =>
      if FIFOBlacklist.is_blacklisted bl1 to_addr (some currency) ∨ transferred > 0 then
        some (BlacklistPolicy.add_to_blacklist_fifo bl1 to_addr transferred c2
          (some amount_sent), transferred)
      else some (bl1, transferred)

end FIFOPolicy

theorem dict_value_some {bl : DictBlacklist.Store} {a : String} {m : List (String × ℤ)}
    (c : String) (ha : lookupKey a bl = some m) :
    DictBlacklist.get_account_blacklist_value bl a c = (lookupKey c m).getD 0 := by
  unfold DictBlacklist.get_account_blacklist_value
  rw [ha]

theorem dict_value_none {bl : DictBlacklist.Store} {a : String} (c : String)
    (ha : lookupKey a bl = none) :
    DictBlacklist.get_account_blacklist_value bl a c = 0 := by
  unfold DictBlacklist.get_account_blacklist_value
  rw [ha]

theorem dict_blacklisted_some {bl : DictBlacklist.Store} {a : String}
    {m : List (String × ℤ)} (c : String) (ha : lookupKey a bl = some m) :
    DictBlacklist.is_blacklisted bl a (some c) = (lookupKey c m).isSome := by
  unfold DictBlacklist.is_blacklisted
  rw [ha]

theorem dict_blacklisted_none {bl : DictBlacklist.Store} {a : String} (c : String)
    (ha : lookupKey a bl = none) :
    DictBlacklist.is_blacklisted bl a (some c) = false := by
  unfold DictBlacklist.is_blacklisted
  rw [ha]

theorem dict_is_blacklisted_elim {bl : DictBlacklist.Store} {a c : String}
    (h : DictBlacklist.is_blacklisted bl a (some c) = true) :
    ∃ m v, lookupKey a bl = some m ∧ lookupKey c m = some v := by
  cases ha : lookupKey a bl with
  | none => rw [dict_blacklisted_none c ha] at h; exact absurd h (by simp)
  | some m =>
    rw [dict_blacklisted_some c ha] at h
    cases hc : lookupKey c m with
    | none => rw [hc] at h; exact absurd h (by simp)
    | some v => exact ⟨m, v, rfl, hc⟩

/-- Behaviour of the Dict store removal at a present entry with a nonnegative
amount: the amount comes back, the entry drops by it, the entry is purged
exactly at zero, and other accounts are untouched. -/
theorem dict_remove_spec (bl : DictBlacklist.Store) (m : List (String × ℤ))
    (a c : String) (amount v : ℤ)
    (ha : lookupKey a bl = some m) (hc : lookupKey c m = some v)
    (hnda : KeysNodup bl) (hndm : KeysNodup m) (hnn : 0 ≤ amount) :
    ∃ bl1, DictBlacklist.remove_from_blacklist bl a amount c = some (bl1, amount) ∧
      DictBlacklist.get_account_blacklist_value bl1 a c = v - amount ∧
      (v - amount = 0 → DictBlacklist.is_blacklisted bl1 a (some c) = false) ∧
      (∀ a2, a2 ≠ a → lookupKey a2 bl1 = lookupKey a2 bl) := by
  have habs : |amount| = amount := abs_of_nonneg hnn
  by_cases h0 : v - amount = 0
  · by_cases hm2 : eraseKey c (upsert m c (v - amount)) = []
    · have hlook : lookupKey a (eraseKey a (upsert bl a (eraseKey c (upsert m c (v - amount)))))
          = none := by
        rw [hm2]
        exact lookupKey_eraseKey_upsert_self bl a ([] : List (String × ℤ)) hnda
      refine ⟨eraseKey a (upsert bl a (eraseKey c (upsert m c (v - amount)))),
        ?_, ?_, fun _ => ?_, fun a2 hne => ?_⟩
      · simp only [DictBlacklist.remove_from_blacklist, ha, hc, habs, if_pos h0]
        have hcond : v - amount = 0 ∧ eraseKey c (upsert m c (v - amount)) = [] := ⟨h0, hm2⟩
        rw [if_pos hcond]
      · rw [dict_value_none c hlook]
        omega
      · rw [dict_blacklisted_none c hlook]
      · rw [lookupKey_eraseKey_ne _ _ _ hne, lookupKey_upsert_ne _ _ _ _ hne]
    · have hlook : lookupKey a (upsert bl a (eraseKey c (upsert m c (v - amount))))
          = some (eraseKey c (upsert m c (v - amount))) := lookupKey_upsert_self _ _ _
      have hcm2 : lookupKey c (eraseKey c (upsert m c (v - amount))) = none :=
        lookupKey_eraseKey_upsert_self m c (v - amount) hndm
      refine ⟨upsert bl a (eraseKey c (upsert m c (v - amount))),
        ?_, ?_, fun _ => ?_, fun a2 hne => ?_⟩
      · simp only [DictBlacklist.remove_from_blacklist, ha, hc, habs, if_pos h0]
        rw [if_neg (by simp [hm2])]
      · rw [dict_value_some c hlook, hcm2]
        simp
        omega
      · rw [dict_blacklisted_some c hlook, hcm2]
        rfl
      · rw [lookupKey_upsert_ne _ _ _ _ hne]
  · have hlook : lookupKey a (upsert bl a (upsert m c (v - amount)))
        = some (upsert m c (v - amount)) := lookupKey_upsert_self _ _ _
    refine ⟨upsert bl a (upsert m c (v - amount)),
      ?_, ?_, fun hz => absurd hz h0, fun a2 hne => ?_⟩
    · simp only [DictBlacklist.remove_from_blacklist, ha, hc, habs, if_neg h0]
      rw [if_neg (by simp [h0])]
    · rw [dict_value_some c hlook, lookupKey_upsert_self]
      rfl
    · rw [lookupKey_upsert_ne _ _ _ _ hne]

/-- Behaviour of the policy-level Dict add at a non-null address: the
account's value in the currency grows by the amount and other accounts are
untouched. -/
theorem dict_add_spec (bl : DictBlacklist.Store) (a c : String) (amount : ℤ)
    (hne : a ≠ null_address) :
    DictBlacklist.get_account_blacklist_value
        (BlacklistPolicy.add_to_blacklist_dict bl a amount c) a c
      = DictBlacklist.get_account_blacklist_value bl a c + amount ∧
    (∀ a2, a2 ≠ a →
      lookupKey a2 (BlacklistPolicy.add_to_blacklist_dict bl a amount c) = lookupKey a2 bl) := by
  refine ⟨?_, fun a2 hne2 => ?_⟩
  · simp only [BlacklistPolicy.add_to_blacklist_dict, if_neg hne,
      DictBlacklist.add_to_blacklist]
    rw [dict_value_some c (lookupKey_upsert_self _ _ _), lookupKey_upsert_self]
    cases hl : lookupKey a bl with
    | none =>
      rw [dict_value_none c hl]
      simp [lookupKey]
    | some mm =>
      rw [dict_value_some c hl]
      simp
  · simp only [BlacklistPolicy.add_to_blacklist_dict, if_neg hne,
      DictBlacklist.add_to_blacklist]
    rw [lookupKey_upsert_ne _ _ _ _ hne2]

theorem deliver_snd (bl : DictBlacklist.Store) (to_address : Option String)
    (transferred : ℤ) (c2 : String) :
    (ReversedSeniorityPolicy.deliver bl to_address transferred c2).2 = transferred := by
  cases to_address with
  | none => rfl
  | some to_addr =>
    simp only [ReversedSeniorityPolicy.deliver]
    split_ifs <;> rfl

/-- C4: for a blacklisted, non-permanently-tainted sender with blacklist
value B and temp balance X, ReversedSeniorityPolicy._transfer_taint moves
exactly max(0, B - (X - amount_sent)) taint, and when that expression is 0 it
returns 0 leaving the blacklist unchanged. -/
theorem c4_reversed_seniority_transfer_amount (bl : DictBlacklist.Store)
    (permanent : List String) (from_address : String) (to_address : Option String)
    (amount_sent : ℤ) (currency : String) (currency_2 : Option String)
    (sender_balance : ℤ)
    (hbl : DictBlacklist.is_blacklisted bl from_address (some currency) = true)
    (hperm : is_permanently_tainted permanent from_address = false)
    (hnda : KeysNodup bl)
    (hndm : ∀ m, lookupKey from_address bl = some m → KeysNodup m) :
    ∃ r, ReversedSeniorityPolicy.transfer_taint bl permanent from_address to_address
        amount_sent currency currency_2 sender_balance = some r ∧
      r.2 = max 0 (DictBlacklist.get_account_blacklist_value bl from_address currency
            - (sender_balance - amount_sent)) ∧
      (r.2 = 0 → r.1 = bl) := by
  obtain ⟨m, v, ha, hc⟩ := dict_is_blacklisted_elim hbl
  have hv : DictBlacklist.get_account_blacklist_value bl from_address currency = v :=
    by rw [dict_value_some currency ha, hc]; rfl
  by_cases hT : max 0 (v - (sender_balance - amount_sent)) = 0
  · refine ⟨(bl, 0), ?_, ?_, fun _ => rfl⟩
    · simp only [ReversedSeniorityPolicy.transfer_taint, hbl, hperm, hv, hT]
      simp
    · simp [hv, hT]
  · obtain ⟨bl1, hrm, _, _, _⟩ := dict_remove_spec bl m from_address currency
      (max 0 (v - (sender_balance - amount_sent))) v ha hc hnda (hndm m ha)
      (le_max_left 0 _)
    refine ⟨ReversedSeniorityPolicy.deliver bl1 to_address
        (max 0 (v - (sender_balance - amount_sent))) (currency_2.getD currency),
      ?_, ?_, fun h2 => ?_⟩
    · simp only [ReversedSeniorityPolicy.transfer_taint, hbl, hperm, hv, if_neg hT]
      simp only [Bool.not_eq_true, Bool.true_eq_false, if_false, hrm]
      simp
    · rw [deliver_snd, hv]
    · rw [deliver_snd] at h2
      exact absurd h2 hT

theorem c4_witness_reversed_seniority_shielded :
    ∃ r, ReversedSeniorityPolicy.transfer_taint [("A", [("ETH", 10)])] [] "A" (some "B")
        20 "ETH" none 100 = some r ∧
      r.2 = max 0 (DictBlacklist.get_account_blacklist_value [("A", [("ETH", 10)])] "A" "ETH"
            - (100 - 20)) ∧
      (r.2 = 0 → r.1 = [("A", [("ETH", 10)])]) :=
  c4_reversed_seniority_transfer_amount [("A", [("ETH", 10)])] [] "A" (some "B") 20 "ETH"
    none 100 (by decide) (by decide) (by decide)
    (by
      intro m hm
      rw [show lookupKey "A" [("A", [("ETH", (10 : ℤ))])] = some [("ETH", 10)] from by decide]
        at hm
      injection hm with hm2
      rw [← hm2]
      decide)

theorem dict_value_congr {bl bl1 : DictBlacklist.Store} {a : String} (c : String)
    (h : lookupKey a bl1 = lookupKey a bl) :
    DictBlacklist.get_account_blacklist_value bl1 a c
      = DictBlacklist.get_account_blacklist_value bl a c := by
  unfold DictBlacklist.get_account_blacklist_value
  rw [h]

theorem dict_blacklisted_congr {bl bl1 : DictBlacklist.Store} {a : String} (c : String)
    (h : lookupKey a bl1 = lookupKey a bl) :
    DictBlacklist.is_blacklisted bl1 a (some c) = DictBlacklist.is_blacklisted bl a (some c) := by
  unfold DictBlacklist.is_blacklisted
  rw [h]

/-- C3: in the Seniority gas-fee rule, for a sender blacklisted in ETH with
pre-debit tainted value B and not permanently tainted, the sender loses
min(total_fee, B) — its entry being purged exactly when B ≤ total_fee — and
the miner gains min(miner_fee, B), both minima taken against the same
pre-debit B, where total_fee = gas_price * gas_used and miner_fee =
(gas_price - base_fee) * gas_used. -/
theorem c3_seniority_gas_fee_minima (bl : DictBlacklist.Store) (permanent : List String)
    (m : List (String × ℤ)) (sender miner : String)
    (gas_price base_fee gas_used B : ℤ)
    (ha : lookupKey sender bl = some m) (hB : lookupKey "ETH" m = some B)
    (hperm : is_permanently_tainted permanent sender = false)
    (hminer : miner ≠ null_address) (hsm : sender ≠ miner)
    (hnda : KeysNodup bl) (hndm : KeysNodup m)
    (hgu : 0 ≤ gas_used) (hbf : 0 ≤ base_fee) (hgp : base_fee ≤ gas_price)
    (hB0 : 0 ≤ B) :
    ∃ bl2, SeniorityPolicy.process_gas_fees bl permanent sender miner gas_price base_fee
        gas_used = some bl2 ∧
      DictBlacklist.get_account_blacklist_value bl2 sender "ETH"
        = B - min (gas_price * gas_used) B ∧
      (B ≤ gas_price * gas_used →
        DictBlacklist.is_blacklisted bl2 sender (some "ETH") = false) ∧
      DictBlacklist.get_account_blacklist_value bl2 miner "ETH"
        = DictBlacklist.get_account_blacklist_value bl miner "ETH"
          + min ((gas_price - base_fee) * gas_used) B := by
  have hbl : DictBlacklist.is_blacklisted bl sender (some "ETH") = true := by
    rw [dict_blacklisted_some "ETH" ha, hB]
    rfl
  have hvB : DictBlacklist.get_account_blacklist_value bl sender "ETH" = B := by
    rw [dict_value_some "ETH" ha, hB]
    rfl
  have htot : 0 ≤ gas_price * gas_used := mul_nonneg (by omega) hgu
  have hmin1 : 0 ≤ min (gas_price * gas_used) B := le_min htot hB0
  obtain ⟨bl1, hrm, hval1, hpurge1, hframe1⟩ :=
    dict_remove_spec bl m sender "ETH" (min (gas_price * gas_used) B) B ha hB hnda hndm hmin1
  obtain ⟨haddval, haddframe⟩ :=
    dict_add_spec bl1 miner "ETH" (min ((gas_price - base_fee) * gas_used) B) hminer
  refine ⟨BlacklistPolicy.add_to_blacklist_dict bl1 miner
      (min ((gas_price - base_fee) * gas_used) B) "ETH", ?_, ?_, fun hle => ?_, ?_⟩
  · simp only [SeniorityPolicy.process_gas_fees, hbl, hperm, hvB, hrm]
    simp
  · rw [dict_value_congr "ETH" (haddframe sender hsm), hval1]
  · rw [dict_blacklisted_congr "ETH" (haddframe sender hsm)]
    apply hpurge1
    omega
  · rw [haddval, dict_value_congr "ETH" (hframe1 miner (Ne.symm hsm))]

theorem c3_witness_seniority_miner_fee :
    ∃ bl2, SeniorityPolicy.process_gas_fees [("S", [("ETH", 3)])] [] "S" "M" 5 3 1
        = some bl2 ∧
      DictBlacklist.get_account_blacklist_value bl2 "S" "ETH" = 3 - min (5 * 1) 3 ∧
      ((3 : ℤ) ≤ 5 * 1 → DictBlacklist.is_blacklisted bl2 "S" (some "ETH") = false) ∧
      DictBlacklist.get_account_blacklist_value bl2 "M" "ETH"
        = DictBlacklist.get_account_blacklist_value [("S", [("ETH", 3)])] "M" "ETH"
          + min ((5 - 3) * 1) 3 :=
  c3_seniority_gas_fee_minima [("S", [("ETH", 3)])] [] [("ETH", 3)] "S" "M" 5 3 1 3
    (by decide) (by decide) (by decide) (by decide) (by decide) (by decide) (by decide)
    (by decide) (by decide) (by decide) (by decide)

theorem upsert_ne_nil {α : Type} (l : List (String × α)) (k : String) (v : α) :
    upsert l k v ≠ [] := by
  cases l with
  | nil => simp [upsert]
  | cons hd tl =>
    obtain ⟨k1, v1⟩ := hd
    simp only [upsert]
    split <;> simp

theorem taintSum_append (q1 q2 : List (ℤ × ℤ)) :
    FIFOBlacklist.taintSum (q1 ++ q2)
      = FIFOBlacklist.taintSum q1 + FIFOBlacklist.taintSum q2 := by
  simp [FIFOBlacklist.taintSum]

theorem inflowSum_append (q1 q2 : List (ℤ × ℤ)) :
    FIFOBlacklist.inflowSum (q1 ++ q2)
      = FIFOBlacklist.inflowSum q1 + FIFOBlacklist.inflowSum q2 := by
  simp [FIFOBlacklist.inflowSum]

theorem dropLast_append_of_getLast {α : Type} {l : List α} {x : α}
    (h : l.getLast? = some x) : l.dropLast ++ [x] = l := by
  induction l with
  | nil => simp at h
  | cons hd tl ih =>
    cases tl with
    | nil => simp at h; simp [h]
    | cons hd2 tl2 =>
      rw [List.getLast?_cons_cons] at h
      simp only [List.dropLast_cons₂, List.cons_append]
      rw [ih h]

theorem fifo_value_congr {bl bl1 : FIFOBlacklist.Store} {a : String} (c : String)
    (h : lookupKey a bl1 = lookupKey a bl) :
    FIFOBlacklist.get_account_blacklist_value bl1 a c
      = FIFOBlacklist.get_account_blacklist_value bl a c := by
  unfold FIFOBlacklist.get_account_blacklist_value
  rw [h]

theorem fifo_tracked_congr {bl bl1 : FIFOBlacklist.Store} {a : String} (c : String)
    (h : lookupKey a bl1 = lookupKey a bl) :
    FIFOBlacklist.get_tracked_value bl1 a c = FIFOBlacklist.get_tracked_value bl a c := by
  unfold FIFOBlacklist.get_tracked_value
  rw [h]

theorem fifo_blacklisted_congr {bl bl1 : FIFOBlacklist.Store} {a : String} (c : String)
    (h : lookupKey a bl1 = lookupKey a bl) :
    FIFOBlacklist.is_blacklisted bl1 a (some c) = FIFOBlacklist.is_blacklisted bl a (some c) := by
  unfold FIFOBlacklist.is_blacklisted
  rw [h]

theorem fifo_value_eq_taintSum (bl : FIFOBlacklist.Store) (a c : String) :
    FIFOBlacklist.get_account_blacklist_value bl a c
      = FIFOBlacklist.taintSum ((lookupKey c ((lookupKey a bl).getD [])).getD []) := by
  unfold FIFOBlacklist.get_account_blacklist_value
  cases lookupKey a bl <;> simp [FIFOBlacklist.taintSum, lookupKey]

theorem fifo_tracked_eq_inflowSum (bl : FIFOBlacklist.Store) (a c : String) :
    FIFOBlacklist.get_tracked_value bl a c
      = FIFOBlacklist.inflowSum ((lookupKey c ((lookupKey a bl).getD [])).getD []) := by
  unfold FIFOBlacklist.get_tracked_value
  cases lookupKey a bl <;> simp [FIFOBlacklist.inflowSum, lookupKey]

theorem fifo_value_some {bl : FIFOBlacklist.Store} {a : String}
    {m : List (String × List (ℤ × ℤ))} (c : String) (ha : lookupKey a bl = some m) :
    FIFOBlacklist.get_account_blacklist_value bl a c
      = FIFOBlacklist.taintSum ((lookupKey c m).getD []) := by
  unfold FIFOBlacklist.get_account_blacklist_value
  rw [ha]

theorem fifo_blacklisted_some {bl : FIFOBlacklist.Store} {a : String}
    {m : List (String × List (ℤ × ℤ))} (c : String) (ha : lookupKey a bl = some m) :
    FIFOBlacklist.is_blacklisted bl a (some c) = (lookupKey c m).isSome := by
  unfold FIFOBlacklist.is_blacklisted
  rw [ha]

theorem fifo_blacklisted_of_value_ne (bl : FIFOBlacklist.Store) (a c : String)
    (h : FIFOBlacklist.get_account_blacklist_value bl a c ≠ 0) :
    FIFOBlacklist.is_blacklisted bl a (some c) = true := by
  cases ha : lookupKey a bl with
  | none =>
    exfalso
    apply h
    unfold FIFOBlacklist.get_account_blacklist_value
    rw [ha]
  | some m =>
    rw [fifo_value_some c ha] at h
    rw [fifo_blacklisted_some c ha]
    cases hc : lookupKey c m with
    | none =>
      rw [hc] at h
      simp [FIFOBlacklist.taintSum] at h
    | some q => rfl

/-- The queue update of FIFOBlacklist.add_to_blacklist for a zero amount
keeps the taint sum and grows the inflow sum by the total. -/
theorem fifo_zero_add_queue (q : List (ℤ × ℤ)) (total : ℤ) :
    FIFOBlacklist.taintSum (FIFOBlacklist.append_or_coalesce q 0 total)
        = FIFOBlacklist.taintSum q ∧
    FIFOBlacklist.inflowSum (FIFOBlacklist.append_or_coalesce q 0 total)
        = FIFOBlacklist.inflowSum q + total := by
  cases hlast : q.getLast? with
  | none =>
    simp [FIFOBlacklist.append_or_coalesce, hlast, taintSum_append, inflowSum_append,
      FIFOBlacklist.taintSum, FIFOBlacklist.inflowSum]
  | some p =>
    obtain ⟨t0, T0⟩ := p
    have hq : q.dropLast ++ [(t0, T0)] = q := dropLast_append_of_getLast hlast
    have hts : FIFOBlacklist.taintSum q = FIFOBlacklist.taintSum q.dropLast + t0 := by
      conv_lhs => rw [← hq]
      rw [taintSum_append]
      simp [FIFOBlacklist.taintSum]
    have his : FIFOBlacklist.inflowSum q = FIFOBlacklist.inflowSum q.dropLast + T0 := by
      conv_lhs => rw [← hq]
      rw [inflowSum_append]
      simp [FIFOBlacklist.inflowSum]
    by_cases ht0 : t0 = 0
    · subst ht0
      rw [show FIFOBlacklist.append_or_coalesce q 0 total = q.dropLast ++ [(0, T0 + total)] by
        simp [FIFOBlacklist.append_or_coalesce, hlast]]
      refine ⟨?_, ?_⟩
      · rw [taintSum_append, hts]
        simp [FIFOBlacklist.taintSum]
      · rw [inflowSum_append, his]
        simp [FIFOBlacklist.inflowSum]
        ring
    · rw [show FIFOBlacklist.append_or_coalesce q 0 total = q ++ [(0, total)] by
        simp only [FIFOBlacklist.append_or_coalesce, hlast]
        rw [if_neg (by simp [ht0])]]
      rw [taintSum_append, inflowSum_append]
      simp [FIFOBlacklist.taintSum, FIFOBlacklist.inflowSum]

/-- Behaviour of the policy-level FIFO add of zero taint with gross total at a
non-null receiver whose tainted value is nonzero: the tracked value grows by
the total, the tainted value is unchanged, and the receiver stays
blacklisted. -/
theorem fifo_add_zero_spec (bl : FIFOBlacklist.Store) (to_addr c : String) (total : ℤ)
    (hne : to_addr ≠ null_address)
    (hval : FIFOBlacklist.get_account_blacklist_value bl to_addr c ≠ 0) :
    FIFOBlacklist.get_tracked_value
        (BlacklistPolicy.add_to_blacklist_fifo bl to_addr 0 c (some total)) to_addr c
      = FIFOBlacklist.get_tracked_value bl to_addr c + total ∧
    FIFOBlacklist.get_account_blacklist_value
        (BlacklistPolicy.add_to_blacklist_fifo bl to_addr 0 c (some total)) to_addr c
      = FIFOBlacklist.get_account_blacklist_value bl to_addr c ∧
    FIFOBlacklist.is_blacklisted
        (BlacklistPolicy.add_to_blacklist_fifo bl to_addr 0 c (some total)) to_addr (some c) = true := by
  have hq := fifo_zero_add_queue ((lookupKey c ((lookupKey to_addr bl).getD [])).getD []) total
  have hvq := fifo_value_eq_taintSum bl to_addr c
  have htq := fifo_tracked_eq_inflowSum bl to_addr c
  simp only [BlacklistPolicy.add_to_blacklist_fifo, if_neg hne,
    FIFOBlacklist.add_to_blacklist, Option.getD_some]
  have hcond1 : ¬ (FIFOBlacklist.taintSum (FIFOBlacklist.append_or_coalesce
      ((lookupKey c ((lookupKey to_addr bl).getD [])).getD []) 0 total) = 0) := by
    rw [hq.1, ← hvq]
    exact hval
  rw [if_neg hcond1]
  rw [if_neg (upsert_ne_nil ((lookupKey to_addr bl).getD []) c _)]
  refine ⟨?_, ?_, ?_⟩
  · rw [fifo_tracked_eq_inflowSum]
    rw [lookupKey_upsert_self, Option.getD_some, lookupKey_upsert_self, Option.getD_some]
    rw [hq.2, htq]
  · rw [fifo_value_eq_taintSum]
    rw [lookupKey_upsert_self, Option.getD_some, lookupKey_upsert_self, Option.getD_some]
    rw [hq.1, hvq]
  · rw [fifo_blacklisted_some c (lookupKey_upsert_self _ _ _), lookupKey_upsert_self]
    rfl

theorem fifo_remove_frame {bl bl1 : FIFOBlacklist.Store} {a : String} {amount r : ℤ}
    {c : String}
    (h : FIFOBlacklist.remove_from_blacklist bl a amount c = some (bl1, r))
    (a2 : String) (hne : a2 ≠ a) : lookupKey a2 bl1 = lookupKey a2 bl := by
  cases ha : lookupKey a bl with
  | none => simp [FIFOBlacklist.remove_from_blacklist, ha] at h
  | some m =>
    cases hc : lookupKey c m with
    | none => simp [FIFOBlacklist.remove_from_blacklist, ha, hc] at h
    | some q =>
      simp only [FIFOBlacklist.remove_from_blacklist, ha, hc, Option.some.injEq,
        Prod.mk.injEq] at h
      rw [← h.1]
      split_ifs <;>
        first
          | rw [lookupKey_eraseKey_ne _ _ _ hne, lookupKey_upsert_ne _ _ _ _ hne]
          | rw [lookupKey_upsert_ne _ _ _ _ hne]

/-- Delivery of a zero-taint inflow with gross total to a receiver unaffected
by the sender-side step: the receiver's tracked value grows by the gross
amount while its tainted value and blacklist membership are unchanged. -/
theorem fifo_zero_delivery (bl bl1 : FIFOBlacklist.Store) (to_addr currency : String)
    (amount_sent : ℤ)
    (hframe : lookupKey to_addr bl1 = lookupKey to_addr bl)
    (hnull : to_addr ≠ null_address)
    (hval : FIFOBlacklist.get_account_blacklist_value bl to_addr currency ≠ 0) :
    FIFOBlacklist.get_tracked_value
        (BlacklistPolicy.add_to_blacklist_fifo bl1 to_addr 0 currency (some amount_sent))
        to_addr currency
      = FIFOBlacklist.get_tracked_value bl to_addr currency + amount_sent ∧
    FIFOBlacklist.get_account_blacklist_value
        (BlacklistPolicy.add_to_blacklist_fifo bl1 to_addr 0 currency (some amount_sent))
        to_addr currency
      = FIFOBlacklist.get_account_blacklist_value bl to_addr currency ∧
    FIFOBlacklist.is_blacklisted
        (BlacklistPolicy.add_to_blacklist_fifo bl1 to_addr 0 currency (some amount_sent))
        to_addr (some currency) = true := by
  have hval1 : FIFOBlacklist.get_account_blacklist_value bl1 to_addr currency ≠ 0 := by
    rw [fifo_value_congr currency hframe]
    exact hval
  obtain ⟨h1, h2, h3⟩ := fifo_add_zero_spec bl1 to_addr currency amount_sent hnull hval1
  refine ⟨?_, ?_, h3⟩
  · rw [h1, fifo_tracked_congr currency hframe]
  · rw [h2, fifo_value_congr currency hframe]

/-- C9: when FIFOPolicy._transfer_taint is called with a receiver already
blacklisted in the currency (with nonzero tainted value, as the purge
invariant maintains) and the transferred taint ends up 0, the receiver still
records an inflow carrying the full gross amount_sent: its tracked value
grows by amount_sent while its tainted value and blacklist membership are
unchanged. -/
theorem c9_fifo_zero_transfer_tracks_gross (bl : FIFOBlacklist.Store)
    (permanent : List String) (from_address to_addr : String) (amount_sent : ℤ)
    (currency : String) (from_temp_balance : ℤ) (bl2 : FIFOBlacklist.Store) (r : ℤ)
    (h : FIFOPolicy.transfer_taint bl permanent from_address (some to_addr) amount_sent
        currency none from_temp_balance = some (bl2, r))
    (hr : r = 0) (hne : from_address ≠ to_addr) (hnull : to_addr ≠ null_address)
    (hval : FIFOBlacklist.get_account_blacklist_value bl to_addr currency ≠ 0) :
    FIFOBlacklist.get_tracked_value bl2 to_addr currency
      = FIFOBlacklist.get_tracked_value bl to_addr currency + amount_sent ∧
    FIFOBlacklist.get_account_blacklist_value bl2 to_addr currency
      = FIFOBlacklist.get_account_blacklist_value bl to_addr currency ∧
    FIFOBlacklist.is_blacklisted bl2 to_addr (some currency) = true := by
  subst hr
  have hblto : FIFOBlacklist.is_blacklisted bl to_addr (some currency) = true :=
    fifo_blacklisted_of_value_ne bl to_addr currency hval
  by_cases hp : is_permanently_tainted permanent from_address = true
  · simp [FIFOPolicy.transfer_taint, hp, hblto] at h
    obtain ⟨h1, h2⟩ := h
    subst h2
    rw [← h1]
    exact fifo_zero_delivery bl bl to_addr currency 0 rfl hnull hval
  · by_cases hb : FIFOBlacklist.is_blacklisted bl from_address (some currency) = true
    · by_cases hs : from_temp_balance
        - FIFOBlacklist.get_tracked_value bl from_address currency < amount_sent
      · cases hrm : FIFOBlacklist.remove_from_blacklist bl from_address
            (amount_sent -
              (from_temp_balance - FIFOBlacklist.get_tracked_value bl from_address currency))
            currency with
        | none =>
          simp [FIFOPolicy.transfer_taint, hp, hb, hs, hrm] at h
        | some p =>
          obtain ⟨bl1, t⟩ := p
          have hframe : lookupKey to_addr bl1 = lookupKey to_addr bl :=
            fifo_remove_frame hrm to_addr (Ne.symm hne)
          have hblto1 : FIFOBlacklist.is_blacklisted bl1 to_addr (some currency) = true := by
            rw [fifo_blacklisted_congr currency hframe]
            exact hblto
          simp [FIFOPolicy.transfer_taint, hp, hb, hs, hrm, hblto1] at h
          obtain ⟨h1, h2⟩ := h
          subst h2
          rw [← h1]
          exact fifo_zero_delivery bl bl1 to_addr currency amount_sent hframe hnull hval
      · simp [FIFOPolicy.transfer_taint, hp, hb, hs, hblto] at h
        subst h
        exact fifo_zero_delivery bl bl to_addr currency amount_sent rfl hnull hval
    · simp [FIFOPolicy.transfer_taint, hp, hb, hblto] at h
      subst h
      exact fifo_zero_delivery bl bl to_addr currency amount_sent rfl hnull hval

theorem c9_witness_fifo_zero_transfer :
    FIFOBlacklist.get_tracked_value [("B", [("ETH", [(2, 2), (0, 7)])])] "B" "ETH"
      = FIFOBlacklist.get_tracked_value [("B", [("ETH", [(2, 2)])])] "B" "ETH" + 7 ∧
    FIFOBlacklist.get_account_blacklist_value [("B", [("ETH", [(2, 2), (0, 7)])])] "B" "ETH"
      = FIFOBlacklist.get_account_blacklist_value [("B", [("ETH", [(2, 2)])])] "B" "ETH" ∧
    FIFOBlacklist.is_blacklisted [("B", [("ETH", [(2, 2), (0, 7)])])] "B" (some "ETH")
      = true :=
  c9_fifo_zero_transfer_tracks_gross [("B", [("ETH", [(2, 2)])])] [] "A" "B" 7 "ETH" 0
    [("B", [("ETH", [(2, 2), (0, 7)])])] 0 (by decide) rfl (by decide) (by decide)
    (by decide)

/-- An operation against a Dict blacklist store: one call of add_to_blacklist
or remove_from_blacklist. -/
inductive DictOp where
  | add (address currency : String) (amount : ℤ)
  | remove (address : String) (amount : ℤ) (currency : String)

namespace DictBlacklist

/-- One Dict store operation; a remove of an absent entry raises KeyError in
the source, embedded as none. -/
def apply_op (bl : Store) : DictOp → Option Store
  | DictOp.add a c amount => some (add_to_blacklist bl a c amount)
  | DictOp.remove a amount c => (remove_from_blacklist bl a amount c).map Prod.fst

/-- A sequence of Dict store operations run from the empty store. -/
def run (ops : List DictOp) : Option Store := ops.foldlM apply_op []

/-- The purge invariant on a Dict store: no account has an empty per-currency
map and no currency entry holds value zero. -/
def Purged (bl : Store) : Prop :=
  ∀ p ∈ bl, p.2 ≠ [] ∧ ∀ q ∈ p.2, q.2 ≠ 0

/-- Strengthened invariant: every stored value is positive. -/
def AllPos (bl : Store) : Prop := ∀ p ∈ bl, p.2 ≠ [] ∧ ∀ q ∈ p.2, 0 < q.2

/-- Runs restricted as the amended claim C7 requires: every add has positive
amount and every remove takes at most the current value. -/
inductive GoodRun : Store → List DictOp → Store → Prop where
  | nil (bl : Store) : GoodRun bl [] bl
  | add (bl blf : Store) (a c : String) (amount : ℤ) (ops : List DictOp)
      (hpos : 0 < amount)
      (h : GoodRun (add_to_blacklist bl a c amount) ops blf) :
      GoodRun bl (DictOp.add a c amount :: ops) blf
  | remove (bl bl1 blf : Store) (a c : String) (amount r : ℤ) (ops : List DictOp)
      (hle : |amount| ≤ get_account_blacklist_value bl a c)
      (h : remove_from_blacklist bl a amount c = some (bl1, r))
      (hrest : GoodRun bl1 ops blf) :
      GoodRun bl (DictOp.remove a amount c :: ops) blf

end DictBlacklist

/-- An operation against a FIFO blacklist store. -/
inductive FifoOp where
  | add (address currency : String) (amount : ℤ) (total_amount : Option ℤ)
  | remove (address : String) (amount : ℤ) (currency : String)

namespace FIFOBlacklist

/-- One FIFO store operation; a remove of an absent entry raises KeyError in
the source, embedded as none. -/
def apply_op (bl : Store) : FifoOp → Option Store
  | FifoOp.add a c amount total => some (add_to_blacklist bl a c amount total)
  | FifoOp.remove a amount c => (remove_from_blacklist bl a amount c).map Prod.fst

/-- A sequence of FIFO store operations run from the empty store. -/
def run (ops : List FifoOp) : Option Store := ops.foldlM apply_op []

/-- The purge invariant on a FIFO store: no account has an empty per-currency
map and no currency entry holds a queue of taint sum zero. -/
def Purged (bl : Store) : Prop :=
  ∀ p ∈ bl, p.2 ≠ [] ∧ ∀ q ∈ p.2, taintSum q.2 ≠ 0

/-- The pair invariant claimed by C8: every queue pair (t, T) satisfies
0 ≤ t ≤ T and 0 < T. -/
def PairsWF (bl : Store) : Prop :=
  ∀ p ∈ bl, ∀ q ∈ p.2, ∀ pr ∈ q.2, 0 ≤ pr.1 ∧ pr.1 ≤ pr.2 ∧ 0 < pr.2

/-- The operation preconditions of the amended claim C8: adds carry
0 ≤ amount ≤ total with 0 < total (total defaulting to amount), removes a
nonnegative amount. -/
def op_ok : FifoOp → Bool
  | FifoOp.add _ _ amount total =>
    0 ≤ amount ∧ amount ≤ total.getD amount ∧ 0 < total.getD amount
  | FifoOp.remove _ amount _ => 0 ≤ amount

end FIFOBlacklist

theorem eraseKey_upsert {α : Type} (l : List (String × α)) (k : String) (v : α) :
    eraseKey k (upsert l k v) = eraseKey k l := by
  induction l with
  | nil => simp [upsert, eraseKey]
  | cons hd tl ih =>
    obtain ⟨k1, v1⟩ := hd
    by_cases hk : k1 = k
    · simp [upsert, eraseKey, hk]
    · simp [upsert, eraseKey, hk, ih]

theorem mem_store_update {α : Type} {l : List (String × α)} {k : String} {v : α}
    {cond : Prop} [Decidable cond] {p : String × α}
    (hp : p ∈ (if cond then eraseKey k (upsert l k v) else upsert l k v)) :
    p ∈ l ∨ (p = (k, v) ∧ ¬ cond) := by
  by_cases hc : cond
  · rw [if_pos hc, eraseKey_upsert] at hp
    exact Or.inl (mem_eraseKey hp)
  · rw [if_neg hc] at hp
    rcases mem_upsert hp with h | h
    · exact Or.inl h
    · exact Or.inr ⟨h, hc⟩

/-- Entries of the per-account map written by the FIFO and Dict mutations:
the inner map is the old one with the currency either purged or rebound. -/
theorem mem_map_update {α : Type} {m : List (String × α)} {c : String} {v : α}
    {cond : Prop} [Decidable cond] {q : String × α}
    (hq : q ∈ (if cond then eraseKey c (upsert m c v) else upsert m c v)) :
    q ∈ m ∨ (q = (c, v) ∧ ¬ cond) := mem_store_update hq

theorem fifo_purged_inner {bl : FIFOBlacklist.Store} (h : FIFOBlacklist.Purged bl)
    (a : String) {q : String × List (ℤ × ℤ)}
    (hq : q ∈ (lookupKey a bl).getD []) : FIFOBlacklist.taintSum q.2 ≠ 0 := by
  cases ha : lookupKey a bl with
  | none => rw [ha] at hq; simp at hq
  | some m =>
    rw [ha] at hq
    exact (h (a, m) (lookupKey_mem ha)).2 q hq

theorem fifo_add_preserves_purged (bl : FIFOBlacklist.Store) (a c : String)
    (amount : ℤ) (total : Option ℤ) (h : FIFOBlacklist.Purged bl) :
    FIFOBlacklist.Purged (FIFOBlacklist.add_to_blacklist bl a c amount total) := by
  intro p hp
  simp only [FIFOBlacklist.add_to_blacklist] at hp
  rcases mem_store_update hp with hmem | ⟨hpe, hm2⟩
  · exact h p hmem
  · subst hpe
    refine ⟨hm2, fun q hq => ?_⟩
    rcases mem_map_update hq with hqm | ⟨hqe, hts⟩
    · exact fifo_purged_inner h a hqm
    · subst hqe
      exact hts

theorem fifo_remove_preserves_purged (bl : FIFOBlacklist.Store) (a : String)
    (amount : ℤ) (c : String) {bl1 : FIFOBlacklist.Store} {r : ℤ}
    (hrm : FIFOBlacklist.remove_from_blacklist bl a amount c = some (bl1, r))
    (h : FIFOBlacklist.Purged bl) : FIFOBlacklist.Purged bl1 := by
  cases ha : lookupKey a bl with
  | none => simp [FIFOBlacklist.remove_from_blacklist, ha] at hrm
  | some m =>
    cases hc : lookupKey c m with
    | none => simp [FIFOBlacklist.remove_from_blacklist, ha, hc] at hrm
    | some q0 =>
      simp only [FIFOBlacklist.remove_from_blacklist, ha, hc, Option.some.injEq,
        Prod.mk.injEq] at hrm
      intro p hp
      rw [← hrm.1] at hp
      rcases mem_store_update hp with hmem | ⟨hpe, hm2⟩
      · exact h p hmem
      · subst hpe
        refine ⟨hm2, fun q hq => ?_⟩
        rcases mem_map_update hq with hqm | ⟨hqe, hts⟩
        · exact (h (a, m) (lookupKey_mem ha)).2 q hqm
        · subst hqe
          exact hts

theorem fifo_foldlM_purged (ops : List FifoOp) : ∀ (bl0 bl : FIFOBlacklist.Store),
    FIFOBlacklist.Purged bl0 → List.foldlM FIFOBlacklist.apply_op bl0 ops = some bl →
    FIFOBlacklist.Purged bl := by
  induction ops with
  | nil =>
    intro bl0 bl h0 hrun
    simp only [List.foldlM_nil, Option.pure_def, Option.some.injEq] at hrun
    rw [← hrun]
    exact h0
  | cons op ops ih =>
    intro bl0 bl h0 hrun
    rw [List.foldlM_cons] at hrun
    cases happ : FIFOBlacklist.apply_op bl0 op with
    | none => rw [happ] at hrun; exact absurd hrun (by simp)
    | some bl1 =>
      rw [happ] at hrun
      simp only [Option.bind_eq_bind, Option.some_bind] at hrun
      refine ih bl1 bl ?_ hrun
      cases op with
      | add a c amount total =>
        simp only [FIFOBlacklist.apply_op, Option.some.injEq] at happ
        rw [← happ]
        exact fifo_add_preserves_purged bl0 a c amount total h0
      | remove a amount c =>
        simp only [FIFOBlacklist.apply_op] at happ
        cases hrm : FIFOBlacklist.remove_from_blacklist bl0 a amount c with
        | none => rw [hrm] at happ; simp at happ
        | some pr =>
          obtain ⟨bl1x, rx⟩ := pr
          rw [hrm] at happ
          simp at happ
          rw [← happ]
          exact fifo_remove_preserves_purged bl0 a amount c hrm h0

theorem dict_allpos_inner {bl : DictBlacklist.Store} (h : DictBlacklist.AllPos bl)
    (a : String) {q : String × ℤ} (hq : q ∈ (lookupKey a bl).getD []) : 0 < q.2 := by
  cases ha : lookupKey a bl with
  | none => rw [ha] at hq; simp at hq
  | some m =>
    rw [ha] at hq
    exact (h (a, m) (lookupKey_mem ha)).2 q hq

theorem dict_add_preserves_allpos (bl : DictBlacklist.Store) (a c : String) (amount : ℤ)
    (hpos : 0 < amount) (h : DictBlacklist.AllPos bl) :
    DictBlacklist.AllPos (DictBlacklist.add_to_blacklist bl a c amount) := by
  intro p hp
  simp only [DictBlacklist.add_to_blacklist] at hp
  rcases mem_upsert hp with hmem | rfl
  · exact h p hmem
  · refine ⟨upsert_ne_nil _ _ _, fun q hq => ?_⟩
    rcases mem_upsert hq with hqm | rfl
    · exact dict_allpos_inner h a hqm
    · have hv0 : 0 ≤ (lookupKey c ((lookupKey a bl).getD [])).getD 0 := by
        cases hcv : lookupKey c ((lookupKey a bl).getD []) with
        | none => simp
        | some v =>
          simp only [Option.getD_some]
          exact le_of_lt (dict_allpos_inner h a (lookupKey_mem hcv))
      exact add_pos_of_nonneg_of_pos hv0 hpos

theorem dict_remove_preserves_allpos (bl : DictBlacklist.Store) (a : String)
    (amount : ℤ) (c : String) {bl1 : DictBlacklist.Store} {r : ℤ}
    (hrm : DictBlacklist.remove_from_blacklist bl a amount c = some (bl1, r))
    (hle : |amount| ≤ DictBlacklist.get_account_blacklist_value bl a c)
    (h : DictBlacklist.AllPos bl) : DictBlacklist.AllPos bl1 := by
  cases ha : lookupKey a bl with
  | none => simp [DictBlacklist.remove_from_blacklist, ha] at hrm
  | some m =>
    cases hc : lookupKey c m with
    | none => simp [DictBlacklist.remove_from_blacklist, ha, hc] at hrm
    | some v =>
      rw [dict_value_some c ha, hc, Option.getD_some] at hle
      simp only [DictBlacklist.remove_from_blacklist, ha, hc, Option.some.injEq,
        Prod.mk.injEq] at hrm
      intro p hp
      rw [← hrm.1] at hp
      rcases mem_store_update hp with hmem | ⟨rfl, hcond⟩
      · exact h p hmem
      · by_cases h0 : v - |amount| = 0
        · refine ⟨fun hm2nil => hcond ⟨h0, hm2nil⟩, fun q hq => ?_⟩
          rw [if_pos h0, eraseKey_upsert] at hq
          exact (h (a, m) (lookupKey_mem ha)).2 q (mem_eraseKey hq)
        · rw [if_neg h0]
          refine ⟨upsert_ne_nil _ _ _, fun q hq => ?_⟩
          rcases mem_upsert hq with hqm | rfl
          · exact (h (a, m) (lookupKey_mem ha)).2 q hqm
          · simp only []
            omega

theorem dict_goodrun_allpos {bl0 : DictBlacklist.Store} {ops : List DictOp}
    {blf : DictBlacklist.Store} (hrun : DictBlacklist.GoodRun bl0 ops blf)
    (h0 : DictBlacklist.AllPos bl0) : DictBlacklist.AllPos blf := by
  induction hrun with
  | nil bl => exact h0
  | add bl blf a c amount ops hpos h ih =>
    exact ih (dict_add_preserves_allpos bl a c amount hpos h0)
  | remove bl bl1 blf a c amount r ops hle h hrest ih =>
    exact ih (dict_remove_preserves_allpos bl a amount c h hle h0)

/-- C7 (amended): after any sequence of adds and removes that complete, the
purge invariant — no zero-valued (account, currency) entry, no account with an
empty per-currency map — holds for the FIFO store unconditionally (adds of
amount 0 included), and for the Dict store provided every add has positive
amount and every remove takes at most the current value; the Dict add itself
never purges, so a zero add violates the invariant (see the counterexample),
and the Set store keeps no per-currency values at all. -/
theorem c7_purge_invariant_by_store :
    (∀ (ops : List FifoOp) (bl : FIFOBlacklist.Store),
        FIFOBlacklist.run ops = some bl → FIFOBlacklist.Purged bl) ∧
    (∀ (ops : List DictOp) (bl : DictBlacklist.Store),
        DictBlacklist.GoodRun [] ops bl → DictBlacklist.Purged bl) := by
  constructor
  · intro ops bl hrun
    refine fifo_foldlM_purged ops [] bl ?_ hrun
    intro p hp
    simp at hp
  · intro ops bl hrun
    have hpos := dict_goodrun_allpos hrun (by intro p hp; simp at hp)
    intro p hp
    obtain ⟨h1, h2⟩ := hpos p hp
    refine ⟨h1, fun q hq => ?_⟩
    have := h2 q hq
    omega

/-- C7 counterexample: a single DictBlacklist add of amount 0 (as the claim
explicitly includes) leaves the zero-valued entry ("A", "ETH") in the store,
violating the purge invariant. -/
theorem c7_counterexample_dict_zero_add_persists :
    DictBlacklist.run [DictOp.add "A" "ETH" 0] = some [("A", [("ETH", 0)])] ∧
    ¬ DictBlacklist.Purged [("A", [("ETH", 0)])] := by
  constructor
  · decide
  · intro hP
    exact (hP ("A", [("ETH", 0)]) (by simp)).2 ("ETH", 0) (by simp) rfl

/-- The consumption loop keeps every queue pair within the bounds
0 ≤ t ≤ T and 0 < T when the removed amount is nonnegative. -/
theorem consume_queue_pairs (q : List (ℤ × ℤ)) : ∀ (amount : ℤ), 0 ≤ amount →
    (∀ pr ∈ q, 0 ≤ pr.1 ∧ pr.1 ≤ pr.2 ∧ 0 < pr.2) →
    ∀ pr ∈ (FIFOBlacklist.consume_queue q amount).1,
      0 ≤ pr.1 ∧ pr.1 ≤ pr.2 ∧ 0 < pr.2 := by
  induction q with
  | nil =>
    intro amount _ _ pr hpr
    simp [FIFOBlacklist.consume_queue] at hpr
  | cons hd tl ih =>
    obtain ⟨t, T⟩ := hd
    intro amount hnn hq pr hpr
    obtain ⟨h1, h2, h3⟩ := hq (t, T) (by simp)
    simp only [FIFOBlacklist.consume_queue] at hpr
    by_cases hdone : amount - min amount T = 0
    · rw [if_pos hdone] at hpr
      by_cases hpop : T - min amount T = 0
      · rw [if_pos hpop] at hpr
        exact hq pr (List.mem_cons_of_mem _ hpr)
      · rw [if_neg hpop] at hpr
        rcases List.mem_cons.mp hpr with rfl | hmem
        · dsimp only
          omega
        · exact hq pr (List.mem_cons_of_mem _ hmem)
    · rw [if_neg hdone] at hpr
      exact ih (amount - min amount T) (by omega)
        (fun pr2 hpr2 => hq pr2 (List.mem_cons_of_mem _ hpr2)) pr hpr

theorem fifo_pairs_inner {bl : FIFOBlacklist.Store} (h : FIFOBlacklist.PairsWF bl)
    (a : String) {q : String × List (ℤ × ℤ)} (hq : q ∈ (lookupKey a bl).getD []) :
    ∀ pr ∈ q.2, 0 ≤ pr.1 ∧ pr.1 ≤ pr.2 ∧ 0 < pr.2 := by
  cases ha : lookupKey a bl with
  | none => rw [ha] at hq; simp at hq
  | some m =>
    rw [ha] at hq
    exact h (a, m) (lookupKey_mem ha) q hq

theorem append_or_coalesce_pairs (q : List (ℤ × ℤ)) (amount total : ℤ)
    (hq : ∀ pr ∈ q, 0 ≤ pr.1 ∧ pr.1 ≤ pr.2 ∧ 0 < pr.2)
    (h1 : 0 ≤ amount) (h2 : amount ≤ total) (h3 : 0 < total) :
    ∀ pr ∈ FIFOBlacklist.append_or_coalesce q amount total,
      0 ≤ pr.1 ∧ pr.1 ≤ pr.2 ∧ 0 < pr.2 := by
  intro pr hpr
  cases hlast : q.getLast? with
  | none =>
    rw [show FIFOBlacklist.append_or_coalesce q amount total = q ++ [(amount, total)] by
      simp [FIFOBlacklist.append_or_coalesce, hlast]] at hpr
    rcases List.mem_append.mp hpr with hmem | hmem
    · exact hq pr hmem
    · rcases List.mem_singleton.mp hmem with rfl
      exact ⟨h1, h2, h3⟩
  | some p0 =>
    obtain ⟨t0, T0⟩ := p0
    have hlmem : (t0, T0) ∈ q := by
      rw [← dropLast_append_of_getLast hlast]
      simp
    by_cases hcond : amount = 0 ∧ t0 = 0
    · rw [show FIFOBlacklist.append_or_coalesce q amount total
          = q.dropLast ++ [(t0, T0 + total)] by
        simp only [FIFOBlacklist.append_or_coalesce, hlast]
        rw [if_pos hcond]] at hpr
      rcases List.mem_append.mp hpr with hmem | hmem
      · exact hq pr (List.dropLast_subset q hmem)
      · rcases List.mem_singleton.mp hmem with rfl
        obtain ⟨g1, g2, g3⟩ := hq (t0, T0) hlmem
        dsimp only
        omega
    · rw [show FIFOBlacklist.append_or_coalesce q amount total = q ++ [(amount, total)] by
        simp only [FIFOBlacklist.append_or_coalesce, hlast]
        rw [if_neg hcond]] at hpr
      rcases List.mem_append.mp hpr with hmem | hmem
      · exact hq pr hmem
      · rcases List.mem_singleton.mp hmem with rfl
        exact ⟨h1, h2, h3⟩

theorem fifo_add_preserves_pairs (bl : FIFOBlacklist.Store) (a c : String)
    (amount : ℤ) (total : Option ℤ)
    (hok : 0 ≤ amount ∧ amount ≤ total.getD amount ∧ 0 < total.getD amount)
    (h : FIFOBlacklist.PairsWF bl) :
    FIFOBlacklist.PairsWF (FIFOBlacklist.add_to_blacklist bl a c amount total) := by
  intro p hp
  simp only [FIFOBlacklist.add_to_blacklist] at hp
  rcases mem_store_update hp with hmem | ⟨rfl, _⟩
  · exact h p hmem
  · intro q hq
    rcases mem_map_update hq with hqm | ⟨rfl, _⟩
    · exact fifo_pairs_inner h a hqm
    · have hqpairs : ∀ pr ∈ (lookupKey c ((lookupKey a bl).getD [])).getD [],
          0 ≤ pr.1 ∧ pr.1 ≤ pr.2 ∧ 0 < pr.2 := by
        cases hcq : lookupKey c ((lookupKey a bl).getD []) with
        | none =>
          intro pr hpr
          simp at hpr
        | some qq =>
          intro pr hpr
          rw [Option.getD_some] at hpr
          exact fifo_pairs_inner h a (lookupKey_mem hcq) pr hpr
      exact append_or_coalesce_pairs _ amount (total.getD amount) hqpairs
        hok.1 hok.2.1 hok.2.2

theorem fifo_remove_preserves_pairs (bl : FIFOBlacklist.Store) (a : String)
    (amount : ℤ) (c : String) {bl1 : FIFOBlacklist.Store} {r : ℤ}
    (hrm : FIFOBlacklist.remove_from_blacklist bl a amount c = some (bl1, r))
    (hnn : 0 ≤ amount) (h : FIFOBlacklist.PairsWF bl) : FIFOBlacklist.PairsWF bl1 := by
  cases ha : lookupKey a bl with
  | none => simp [FIFOBlacklist.remove_from_blacklist, ha] at hrm
  | some m =>
    cases hc : lookupKey c m with
    | none => simp [FIFOBlacklist.remove_from_blacklist, ha, hc] at hrm
    | some q0 =>
      simp only [FIFOBlacklist.remove_from_blacklist, ha, hc, Option.some.injEq,
        Prod.mk.injEq] at hrm
      intro p hp
      rw [← hrm.1] at hp
      rcases mem_store_update hp with hmem | ⟨rfl, _⟩
      · exact h p hmem
      · intro q hq
        rcases mem_map_update hq with hqm | ⟨rfl, _⟩
        · exact h (a, m) (lookupKey_mem ha) q hqm
        · exact consume_queue_pairs q0 amount hnn
            (h (a, m) (lookupKey_mem ha) (c, q0) (lookupKey_mem hc))

theorem fifo_foldlM_pairs (ops : List FifoOp) : ∀ (bl0 bl : FIFOBlacklist.Store),
    (∀ op ∈ ops, FIFOBlacklist.op_ok op = true) → FIFOBlacklist.PairsWF bl0 →
    List.foldlM FIFOBlacklist.apply_op bl0 ops = some bl → FIFOBlacklist.PairsWF bl := by
  induction ops with
  | nil =>
    intro bl0 bl _ h0 hrun
    simp only [List.foldlM_nil, Option.pure_def, Option.some.injEq] at hrun
    rw [← hrun]
    exact h0
  | cons op ops ih =>
    intro bl0 bl hok h0 hrun
    rw [List.foldlM_cons] at hrun
    cases happ : FIFOBlacklist.apply_op bl0 op with
    | none => rw [happ] at hrun; exact absurd hrun (by simp)
    | some bl1 =>
      rw [happ] at hrun
      simp only [Option.bind_eq_bind, Option.some_bind] at hrun
      refine ih bl1 bl (fun op2 hop2 => hok op2 (List.mem_cons_of_mem _ hop2)) ?_ hrun
      have hok0 := hok op (by simp)
      cases op with
      | add a c amount total =>
        simp only [FIFOBlacklist.apply_op, Option.some.injEq] at happ
        simp only [FIFOBlacklist.op_ok, decide_eq_true_eq] at hok0
        rw [← happ]
        exact fifo_add_preserves_pairs bl0 a c amount total hok0 h0
      | remove a amount c =>
        simp only [FIFOBlacklist.apply_op] at happ
        simp only [FIFOBlacklist.op_ok, decide_eq_true_eq] at hok0
        cases hrm : FIFOBlacklist.remove_from_blacklist bl0 a amount c with
        | none => rw [hrm] at happ; simp at happ
        | some pr =>
          obtain ⟨bl1x, rx⟩ := pr
          rw [hrm] at happ
          simp at happ
          rw [← happ]
          exact fifo_remove_preserves_pairs bl0 a amount c hrm hok0 h0

/-- C8 (amended): after any completed sequence of FIFO store operations in
which every add satisfies 0 ≤ amount ≤ total_amount and 0 < total_amount
(total_amount defaulting to amount) and every remove has a nonnegative
amount, every queue pair (tainted_portion, total_inflow) satisfies
0 ≤ tainted_portion ≤ total_inflow and 0 < total_inflow.  Without the add
precondition the bounds fail: see the counterexample, where an add of amount
0 with total_amount 0 appends the pair (0, 0). -/
theorem c8_fifo_pair_bounds (ops : List FifoOp) (bl : FIFOBlacklist.Store)
    (hok : ∀ op ∈ ops, FIFOBlacklist.op_ok op = true)
    (hrun : FIFOBlacklist.run ops = some bl) : FIFOBlacklist.PairsWF bl := by
  refine fifo_foldlM_pairs ops [] bl hok ?_ hrun
  intro p hp
  simp at hp

theorem c8_witness_fifo_pair_bounds :
    FIFOBlacklist.PairsWF [("A", [("ETH", [(5, 5)])])] :=
  c8_fifo_pair_bounds [FifoOp.add "A" "ETH" 5 none] [("A", [("ETH", [(5, 5)])])]
    (by decide) (by decide)

/-- C8 counterexample: adding taint 5 and then a zero-taint inflow with
total_amount 0 — the call shape FIFOPolicy._transfer_taint uses for a
zero-value transfer to a tainted receiver — leaves the queue pair (0, 0),
whose total_inflow is not positive. -/
theorem c8_counterexample_zero_total_pair :
    FIFOBlacklist.run [FifoOp.add "A" "ETH" 5 none, FifoOp.add "A" "ETH" 0 (some 0)]
      = some [("A", [("ETH", [(5, 5), (0, 0)])])] ∧
    ¬ FIFOBlacklist.PairsWF [("A", [("ETH", [(5, 5), (0, 0)])])] := by
  constructor
  · decide
  · intro hP
    have h00 := hP ("A", [("ETH", [(5, 5), (0, 0)])]) (by simp)
      ("ETH", [(5, 5), (0, 0)]) (by simp) (0, 0) (by simp)
    exact absurd h00.2.2 (lt_irrefl 0)

/-- Scale the positive fraction num / den by powers of two until it lies in
the binary64 mantissa window from 2 ^ 52 to 2 ^ 53, returning the scaled
numerator and denominator together with the binary exponent e such that
num / den = (num1 / den1) * 2 ^ e.  The fuel bounds the number of shifts;
4400 covers the entire double range. -/
def shiftToWindow : ℕ → ℤ → ℤ → ℤ → ℤ × ℤ × ℤ
  | 0, num, den, e => (num, den, e)
  | fuel + 1, num, den, e =>
    if num < 2 ^ 52 * den then shiftToWindow fuel (2 * num) den (e - 1)
    else if 2 ^ 53 * den ≤ num then shiftToWindow fuel num (2 * den) (e + 1)
    else (num, den, e)

/-- Round the fraction num / den (den positive) to the nearest integer, ties
to even. -/
def rneInt (num den : ℤ) : ℤ :=
  if 2 * (num - Int.fdiv num den * den) < den then Int.fdiv num den
  else if den < 2 * (num - Int.fdiv num den * den) then Int.fdiv num den + 1
  else if Int.fdiv num den % 2 = 0 then Int.fdiv num den else Int.fdiv num den + 1

/-- The IEEE-754 binary64 value nearest the exact fraction num / den (round
half to even, normal range), represented exactly as a mantissa-exponent pair
(n, e) standing for n * 2 ^ e.  Modelled from the spec and Python semantics:
CPython floats, which policy_haircut.py computes with, are binary64 doubles;
every arithmetic result is rounded into this grid, and int / int true
division is the correctly rounded quotient of the exact operands. -/
def roundF64 (num den : ℤ) : ℤ × ℤ :=
  if num = 0 then (0, 0)
  else if den < 0 then
    let p := shiftToWindow 4400 |num| (-den) 0
    (-(if num < 0 then (-1 : ℤ) else 1) * rneInt p.1 p.2.1, p.2.2)
  else
    let p := shiftToWindow 4400 |num| den 0
    ((if num < 0 then (-1 : ℤ) else 1) * rneInt p.1 p.2.1, p.2.2)

/-- Binary64 multiplication of two mantissa-exponent pairs: the exact product
of the mantissas is rounded back into the grid and the exponents add. -/
def mulF64 (a b : ℤ × ℤ) : ℤ × ℤ :=
  ((roundF64 (a.1 * b.1) 1).1, (roundF64 (a.1 * b.1) 1).2 + a.2 + b.2)

/-- Python int() truncation toward zero of a binary64 value n * 2 ^ e. -/
def truncF64 (a : ℤ × ℤ) : ℤ :=
  if 0 ≤ a.2 then a.1 * 2 ^ a.2.toNat
  else if 0 ≤ a.1 then Int.fdiv a.1 (2 ^ (-a.2).toNat)
  else -Int.fdiv (-a.1) (2 ^ (-a.2).toNat)

/-- Embeds the transferred-taint computation of HaircutPolicy.temp_transfer
(policy_haircut.py lines 179-180) and transfer_taint (lines 227 and 238) on
the clean path (positive balance, proportion at most 1): taint_proportion =
T / S is Python float true division of two integers, the correctly rounded
binary64 quotient; transferred_amount = int(amount * taint_proportion)
converts amount to binary64, multiplies in binary64 and truncates. -/
def haircut_transferred_code (amount T S : ℤ) : ℤ :=
  truncF64 (mulF64 (roundF64 amount 1) (roundF64 T S))

/-- The integer floor division the specification requires for the Haircut
transfer: (amount_sent * T) // S in exact arbitrary-precision arithmetic. -/
def haircut_transferred_spec (amount T S : ℤ) : ℤ := Int.fdiv (amount * T) S

/-- C2: at the claim's own instance (amount 20, T = 10, S = 40) the float
code agrees with exact floor division (both give 5, the binary fractions
being exact), but at amount = 49, T = 1, S = 49 the code computes
int(49 * (1 / 49)) = int(0.9999999999999999) = 0 in binary64 while the
specified exact integer rule gives (49 * 1) // 49 = 1: the Haircut source
computes with floats, not the specified arbitrary-precision integers. -/
theorem c2_haircut_float_drifts_from_integer_rule :
    haircut_transferred_code 20 10 40 = 5 ∧
    haircut_transferred_code 49 1 49 = 0 ∧
    haircut_transferred_spec 49 1 49 = 1 := by
  refine ⟨by decide, by decide, by decide⟩

end EthBlacklisting
